import Mathlib

/- Shallow embedding of the daily devotional bot in src/daily_qt.py.

   Python strings are modelled as lists of characters (abbrev Str), so that
   List.length counts code points exactly as the Python len function does.
   The one fallible path that raises (indexing a string element of a mixed
   list as if it were a dict, a TypeError) is modelled with Option.

   The regular-expression substitutions used by the fetchers
   (re.sub removing footnote markers, replacing cross-reference markers by
   a space, and collapsing whitespace runs to one space) are modelled by
   direct recursive scanners with the exact semantics of re.sub: scan left
   to right, on a match consume it and continue after it without rescanning
   the replacement, otherwise emit one character and advance by one. -/

set_option maxRecDepth 20000

abbrev Str := List Char

/-- Python ASCII whitespace, the characters the regex class backslash-s
matches on ASCII text. -/
def pyIsSpace (c : Char) : Bool :=
  c = ' ' || c = '\t' || c = '\n' || c = '\r' || c = '\x0b' || c = '\x0c'

/-- The regex class a-zA-Z. -/
def isAsciiLetter (c : Char) : Bool :=
  ('a' ≤ c && c ≤ 'z') || ('A' ≤ c && c ≤ 'Z')

/-- The regex class A-Z. -/
def isUpperAscii (c : Char) : Bool :=
  'A' ≤ c && c ≤ 'Z'

/-- One pass of re.sub deleting footnote markers: an opening square
bracket, one ASCII letter, a closing square bracket (daily_qt.py lines 85
and 175 and 194). -/
def subFootnote : Str → Str
  | [] => []
  | [a] => [a]
  | [a, b] => [a, b]
  | a :: b :: c :: rest2 =>
    if a = '[' ∧ isAsciiLetter b ∧ c = ']' then subFootnote rest2
    else a :: subFootnote (b :: c :: rest2)

/-- One pass of re.sub replacing cross-reference markers by one space: an
opening parenthesis, one uppercase ASCII letter, a closing parenthesis
(daily_qt.py line 86). -/
def subCrossref : Str → Str
  | [] => []
  | [a] => [a]
  | [a, b] => [a, b]
  | a :: b :: c :: rest2 =>
    if a = '(' ∧ isUpperAscii b ∧ c = ')' then ' ' :: subCrossref rest2
    else a :: subCrossref (b :: c :: rest2)

/-- Worker for collapseWs; the flag records whether the scanner is inside a
whitespace run for which the single replacement space was already emitted. -/
def collapseWsAux : Bool → Str → Str
  | _, [] => []
  | inRun, c :: rest =>
    if pyIsSpace c then
      if inRun then collapseWsAux true rest
      else ' ' :: collapseWsAux true rest
    else c :: collapseWsAux false rest

/-- re.sub replacing each maximal whitespace run by one space
(daily_qt.py lines 87 and 193). -/
def collapseWs (s : Str) : Str := collapseWsAux false s

/-- Python str.strip from the left, on ASCII whitespace. -/
def pyStripLeft (s : Str) : Str := s.dropWhile pyIsSpace

/-- Python str.strip from the right, on ASCII whitespace. -/
def pyStripRight (s : Str) : Str := (s.reverse.dropWhile pyIsSpace).reverse

/-- Python str.strip, on ASCII whitespace. -/
def pyStrip (s : Str) : Str := pyStripRight (pyStripLeft s)

/-- Python slice s[:stop] for a possibly negative stop index: a negative
stop counts from the end of the string, clamping at zero. -/
def pySliceTo (s : Str) (stop : Int) : Str :=
  if 0 ≤ stop then s.take stop.toNat
  else s.take (s.length - (-stop).toNat)

/-- A verse dict as built by the fetchers: the num and text fields. -/
structure Verse where
  num : Str
  text : Str
deriving DecidableEq

/-- One element of the dynamically typed lists the Python code passes
around: either a string or a verse dict. -/
inductive Item where
  | s (s : Str)
  | v (v : Verse)
deriving DecidableEq

/-- The dynamically typed argument of chunk_verses_by_size: a bare string
or a list. -/
inductive ChunkInput where
  | str (s : Str)
  | list (items : List Item)
deriving DecidableEq

/-- The f-string rendering one verse for a chunk: the verse number between
double asterisks, a space, the verse text (daily_qt.py line 232). -/
def renderVerse (v : Verse) : Str :=
  '*' :: '*' :: (v.num ++ ('*' :: '*' :: ' ' :: v.text))

/-- The verse-packing loop of chunk_verses_by_size (daily_qt.py lines
231 to 254), including the final flush of the current chunk: chunks holds
the finished chunks and current the chunk being built, the empty string
when none. The truncation branch renders Python verse_text[:max_size - 50]
with its negative-slice semantics, then appends the three-dot marker. -/
def chunkLoop (max_size : Nat) : List Verse → List Str → Str → List Str
  | [], chunks, current =>
    if current ≠ [] then chunks ++ [current] else chunks
  | v :: rest, chunks, current =>
    let verse_text := renderVerse v
    let test_chunk := if current ≠ [] then current ++ ' ' :: verse_text else verse_text
    if test_chunk.length > max_size then
      if current ≠ [] then
        chunkLoop max_size rest (chunks ++ [current]) verse_text
      else
        chunkLoop max_size rest
          (chunks ++ [pySliceTo verse_text ((max_size : Int) - 50) ++ "...".toList]) []
    else
      chunkLoop max_size rest chunks test_chunk

/-- Reading every element of a list as a verse dict, in order; none models
the TypeError raised when a string element is indexed with the num key
(daily_qt.py line 232 on a non-dict element). -/
def allVerses : List Item → Option (List Verse)
  | [] => some []
  | Item.v v :: rest => (allVerses rest).map (fun vs => v :: vs)
  | Item.s _ :: _ => none

/-- The placeholder chunk for an empty result (daily_qt.py line 256). -/
def noTextMsg : Str := "Error: No text to display".toList

/-- chunk_verses_by_size (daily_qt.py lines 218 to 256). A bare string is
wrapped in a one-element list; a list whose first element is a string is
returned unchanged; otherwise every element is read as a verse dict (none
on the TypeError a string element would raise) and packed greedily. -/
def chunk_verses_by_size (verses : ChunkInput) (max_size : Nat) : Option (List Item) :=
  match verses with
  | ChunkInput.str s => some [Item.s s]
  | ChunkInput.list items =>
    match items with
    | Item.s _ :: _ => some items
    | _ =>
      match allVerses items with
      | none => none
      | some vs =>
        let chunks := chunkLoop max_size vs [] []
        some ((if chunks ≠ [] then chunks else [noTextMsg]).map Item.s)

/-- Joining a list of strings with one space between consecutive elements,
exactly the separator chunkLoop inserts between verses of one chunk. -/
def joinSep : List Str → Str
  | [] => []
  | [c] => c
  | c :: rest => c ++ ' ' :: joinSep rest

/-- The text of the chunk a block of consecutive verses becomes. -/
def blockText (b : List Verse) : Str := joinSep (b.map renderVerse)

/-- Concatenation of a list of verse blocks. -/
def catBlocks : List (List Verse) → List Verse
  | [] => []
  | b :: rest => b ++ catBlocks rest

/-- The value a fetcher returns: a bare string, or a list of strings and
verse dicts. -/
inductive FetchResult where
  | str (s : Str)
  | items (l : List Item)
deriving DecidableEq

/-- One span.text element of the scraped page, as the fetchers read it:
the text of its sup.versenum child if present (after get_text with
strip=True), and the text of the span after the decompose calls the
fetcher performs, as returned by get_text with strip=True. -/
structure Span where
  versenum : Option Str
  text : Str
deriving DecidableEq

/-- What a fetcher inspects of one scrape response: the HTTP status code,
the list of span.text elements of the passage container when some
candidate selector locates one (none when no selector matches), and the
full container text used by the Korean fallback, as returned by get_text
with a space separator and strip=True after removing the unwanted
header and publisher elements. -/
structure ScrapePage where
  status : Nat
  container : Option (List Span)
  fallbackText : Str
deriving DecidableEq

/-- The string literal of daily_qt.py line 55: the f prefix is missing in
the source, so the braces and the expression between them are literal
text, the status code is never interpolated. -/
def engHttpMsg : Str := "Error: HTTP \x7bresponse.status_code\x7d".toList

/-- Error text of daily_qt.py lines 65 and 155. -/
def noContainerMsg : Str := "Error: No passage container found".toList

/-- Error text of daily_qt.py line 97. -/
def engNoVersesMsg : Str := "Error: Could not extract verses".toList

/-- Error text of daily_qt.py line 207. -/
def korNoTextMsg : Str := "Error: Could not extract passage text".toList

/-- The cleanup the English fetcher applies to one verse text
(daily_qt.py lines 85 to 88): delete footnote markers, replace
cross-reference markers by a space, collapse whitespace runs, strip. -/
def engCleanText (t : Str) : Str :=
  pyStrip (collapseWs (subCrossref (subFootnote t)))

/-- One English span becomes a verse when it has a verse number and its
cleaned text is nonempty (daily_qt.py lines 79 to 90). -/
def engExtract (sp : Span) : Option Verse :=
  match sp.versenum with
  | none => none
  | some n =>
    let t := engCleanText sp.text
    if t ≠ [] then some ⟨n, t⟩ else none

/-- fetch_english_text (daily_qt.py lines 36 to 103) on a scrape
response: non-200 status yields the literal HTTP error string in a
one-element list; a missing container yields a one-element error list;
otherwise the verse spans are extracted, and when none are recognized the
function returns a one-element error list, there is no fallback. -/
def fetch_english_text (page : ScrapePage) : FetchResult :=
  if page.status ≠ 200 then FetchResult.items [Item.s engHttpMsg]
  else
    match page.container with
    | none => FetchResult.items [Item.s noContainerMsg]
    | some spans =>
      let verses_data := spans.filterMap engExtract
      if verses_data ≠ [] then FetchResult.items (verses_data.map Item.v)
      else FetchResult.items [Item.s engNoVersesMsg]

/-- One Korean span becomes a verse when it has a verse number and its
text, after the footnote pass only, is nonempty (daily_qt.py lines 166
to 177): the Korean fetcher has no cross-reference pass, no whitespace
collapse and no strip on verse texts. -/
def korExtract (sp : Span) : Option Verse :=
  match sp.versenum with
  | none => none
  | some n =>
    let t := subFootnote sp.text
    if t ≠ [] then some ⟨n, t⟩ else none

/-- The Korean fallback text (daily_qt.py lines 191 to 194): container
text, whitespace runs collapsed, then the footnote pass. -/
def korFallback (page : ScrapePage) : Str :=
  subFootnote (collapseWs page.fallbackText)

/-- The Korean HTTP error (daily_qt.py line 128): a true f-string, the
status code is interpolated, and the result is a bare string. -/
def korHttpMsg (status : Nat) : Str :=
  "Error: HTTP ".toList ++ (Nat.repr status).toList

/-- fetch_korean_text (daily_qt.py lines 106 to 213) on a scrape
response: non-200 status and a missing container both yield bare error
strings, not lists; otherwise verse spans are extracted, and when none
are recognized the fallback returns the full container text as one verse
dict numbered 1 when that text is longer than 100 characters, else a
one-element error list. -/
def fetch_korean_text (page : ScrapePage) : FetchResult :=
  if page.status ≠ 200 then FetchResult.str (korHttpMsg page.status)
  else
    match page.container with
    | none => FetchResult.str noContainerMsg
    | some spans =>
      let verses_data := spans.filterMap korExtract
      if verses_data ≠ [] then FetchResult.items (verses_data.map Item.v)
      else
        let t := korFallback page
        if t.length > 100 then FetchResult.items [Item.v ⟨"1".toList, t⟩]
        else FetchResult.items [Item.s korNoTextMsg]

/-- Whether a string contains two consecutive whitespace characters. -/
def hasWsRun : Str → Bool
  | a :: b :: rest => (pyIsSpace a && pyIsSpace b) || hasWsRun (b :: rest)
  | _ => false

/-- Whether a string contains a cross-reference marker: an opening
parenthesis, an uppercase ASCII letter, a closing parenthesis. -/
def hasCrossrefMark : Str → Bool
  | a :: b :: c :: rest =>
    (a == '(' && isUpperAscii b && c == ')') || hasCrossrefMark (b :: c :: rest)
  | _ => false

/-- Whether a string contains a footnote marker: an opening square
bracket, an ASCII letter, a closing square bracket. -/
def hasFootnoteMark : Str → Bool
  | a :: b :: c :: rest =>
    (a == '[' && isAsciiLetter b && c == ']') || hasFootnoteMark (b :: c :: rest)
  | _ => false

/-- Whether a fetch result is a list (as opposed to a bare string). -/
def resultIsList : FetchResult → Bool
  | FetchResult.items _ => true
  | FetchResult.str _ => false

/-- Whether a string begins with the word Error. -/
def startsWithError (s : Str) : Bool := "Error".toList.isPrefixOf s

/-- One row of the schedule sheet: the Date and Reference columns, both
read as strings. -/
structure SheetRow where
  date : Str
  reference : Str
deriving DecidableEq

/-- get_todays_reference (daily_qt.py lines 29 to 33): the first row whose
Date equals the current date string wins, none otherwise. The str
coercion of the Date cell is modelled as the identity on string cells. -/
def get_todays_reference : List SheetRow → Str → Option Str
  | [], _ => none
  | row :: rest, today =>
    if row.date = today then some row.reference
    else get_todays_reference rest today

/-- The log line of daily_qt.py line 340. -/
def noReadingMsg : Str := "No reading scheduled for today.".toList

/-- The observable outcome of one run of main: the log lines modelled
(the unconditional opening banner print is omitted) and whether
post_to_discord, which performs the webhook POST, was invoked. -/
structure MainResult where
  logs : List Str
  calledPost : Bool
deriving DecidableEq

/-- main (daily_qt.py lines 330 to 340), parameterized by the schedule
rows, the current date string and the two fetchers. -/
def mainRun (rows : List SheetRow) (today : Str)
    (fetchE fetchK : Str → FetchResult) : MainResult :=
  match get_todays_reference rows today with
  | some ref =>
    let _ := fetchE ref
    let _ := fetchK ref
    { logs := ["Found reference: ".toList ++ ref], calledPost := true }
  | none => { logs := [noReadingMsg], calledPost := false }

/-- A fetcher stub used to instantiate mainRun at concrete inputs. -/
def dummyFetch : Str → FetchResult := fun _ => FetchResult.items []

/- Concrete inputs used by counterexamples and witnesses. -/

/-- A short first verse, for the oversized-verse failing input. -/
def cbSmallVerse : Verse := ⟨"1".toList, "a".toList⟩

/-- A verse whose rendered text has 66 characters, oversized for
max_size 60. -/
def cbHugeVerse : Verse := ⟨"2".toList, List.replicate 60 'x'⟩

/-- A 200 response in which no candidate selector locates a container. -/
def pageNoContainer : ScrapePage := ⟨200, none, []⟩

/-- A failed response. -/
def page404 : ScrapePage := ⟨404, none, []⟩

/-- A 200 response with a located container, no verse spans, and a long
container text. -/
def pageNoSpansEng : ScrapePage := ⟨200, some [], List.replicate 150 'x'⟩

/-- A 200 response with a located container, no verse spans, and a short
container text. -/
def pageShortFallback : ScrapePage := ⟨200, some [], "short".toList⟩

/-- A verse span whose text holds a whitespace run and a cross-reference
marker. -/
def spanMarkup : Span := ⟨some "1".toList, "a  b (C) d".toList⟩

/-- A 200 response whose container holds spanMarkup. -/
def pageKorMarkup : ScrapePage := ⟨200, some [spanMarkup], []⟩

/-- A verse span with nested bracket markers: one footnote pass leaves a
residual marker. -/
def spanNested : Span := ⟨some "1".toList, "[[a]a]".toList⟩

/-- A 200 response whose container holds spanNested. -/
def pageEngNested : ScrapePage := ⟨200, some [spanNested], []⟩

/-- A verse span with ordinary markers. -/
def spanPlain : Span := ⟨some "3".toList, "For God so loved (A) the world [a]".toList⟩

/-- A 200 response whose container holds spanPlain. -/
def pageEngPlain : ScrapePage := ⟨200, some [spanPlain], []⟩

/-- The verse the English fetcher extracts from spanPlain. -/
def engPlainVerse : Verse := ⟨"3".toList, "For God so loved the world".toList⟩

/-- Witness verses for the greedy packing claim. -/
def wVerseA : Verse := ⟨"1".toList, "a".toList⟩

/-- Second witness verse for the greedy packing claim. -/
def wVerseB : Verse := ⟨"2".toList, "b".toList⟩

/-- Witness error strings for the pass-through claim. -/
def errStrA : Str := "Error: a".toList

/-- Second witness error string for the pass-through claim. -/
def errStrB : Str := "Error: b".toList

/-- A schedule row for a date other than the witness current date. -/
def rowJan1 : SheetRow := ⟨"2026-01-01".toList, "John 3:16".toList⟩

/- Helper lemmas. -/

theorem korExtract_none (sp : Span) (h : sp.versenum = none) : korExtract sp = none := by
  simp [korExtract, h]

theorem engExtract_none (sp : Span) (h : sp.versenum = none) : engExtract sp = none := by
  simp [engExtract, h]

theorem get_todays_reference_none (rows : List SheetRow) (today : Str)
    (h : ∀ r ∈ rows, r.date ≠ today) : get_todays_reference rows today = none := by
  induction rows with
  | nil => rfl
  | cons r rest ih =>
    have hr : r.date ≠ today := h r (List.mem_cons_self r rest)
    simp only [get_todays_reference, if_neg hr]
    exact ih fun x hx => h x (List.mem_cons_of_mem r hx)

/- Claim theorems. -/

/-- C3: on the empty verse list, chunk_verses_by_size returns exactly the
one-element list holding the fixed placeholder string, never an empty
sequence, whatever max_size is. -/
theorem chunk_empty_placeholder (m : Nat) :
    chunk_verses_by_size (ChunkInput.list []) m = some [Item.s noTextMsg] := rfl

/-- C9: the error-list pass-through inspects only the first element: any
list whose first element is a string is returned unchanged as the chunk
list, whatever max_size is and whatever the later elements are, including
verse dicts, which are therefore never rendered nor size-checked. -/
theorem chunk_first_string_passthrough (s : Str) (rest : List Item) (m : Nat) :
    chunk_verses_by_size (ChunkInput.list (Item.s s :: rest)) m = some (Item.s s :: rest) := rfl

/-- C4: a bare string input comes back as the single chunk of a one-element
list, and a nonempty list of strings is passed through unchanged, one chunk
per string, whatever max_size is. -/
theorem chunk_error_passthrough (s : Str) (m1 : Nat) (ss : List Str) (m2 : Nat)
    (hne : ss ≠ []) :
    chunk_verses_by_size (ChunkInput.str s) m1 = some [Item.s s] ∧
    chunk_verses_by_size (ChunkInput.list (ss.map Item.s)) m2 = some (ss.map Item.s) := by
  refine ⟨rfl, ?_⟩
  match ss, hne with
  | a :: t, _ => rfl

/-- Witness for C4 at concrete inputs. -/
theorem chunk_error_passthrough_ok :
    ([errStrA, errStrB] : List Str) ≠ [] ∧
    (chunk_verses_by_size (ChunkInput.str errStrA) 1024 = some [Item.s errStrA] ∧
     chunk_verses_by_size (ChunkInput.list ([errStrA, errStrB].map Item.s)) 1024
       = some ([errStrA, errStrB].map Item.s)) :=
  ⟨by decide, chunk_error_passthrough errStrA 1024 [errStrA, errStrB] 1024 (by decide)⟩

/-- C2: evaluation at the failing input. With max_size 60, the second
verse renders to 66 characters, more than max_size, yet the chunker emits
it untruncated, with no truncation marker, as a chunk of length 66: the
truncation branch runs only when the current chunk is empty, and here the
first verse occupies it. This contradicts both the claim and the
docstring of chunk_verses_by_size, which promises chunks that do not
exceed max_size. -/
theorem chunk_oversized_not_truncated :
    chunk_verses_by_size (ChunkInput.list [Item.v cbSmallVerse, Item.v cbHugeVerse]) 60
      = some [Item.s (renderVerse cbSmallVerse), Item.s (renderVerse cbHugeVerse)]
    ∧ (renderVerse cbHugeVerse).length = 66 := by
  constructor <;> decide

/-- C10: for every response whose status is not 200, fetch_english_text
returns the one-element list holding the literal string of line 55, with
the brace expression as literal text: the numeric status code is never
interpolated, because the f prefix is missing in the source. -/
theorem eng_http_error_literal (page : ScrapePage) (h : page.status ≠ 200) :
    fetch_english_text page = FetchResult.items [Item.s engHttpMsg] := by
  simp [fetch_english_text, h]

/-- Witness for C10 at a 404 response. -/
theorem eng_http_error_literal_ok :
    page404.status ≠ 200 ∧
    fetch_english_text page404 = FetchResult.items [Item.s engHttpMsg] :=
  ⟨by decide, eng_http_error_literal page404 (by decide)⟩

/-- C5 counterexample: at a concrete 200 response with no matching
container, fetch_korean_text returns the error text as a bare string
(daily_qt.py line 155), not as a single-element list, refuting the claim
that each fetcher returns a single-element result there. -/
theorem kor_no_container_bare_string :
    fetch_korean_text pageNoContainer = FetchResult.str noContainerMsg ∧
    resultIsList (fetch_korean_text pageNoContainer) = false := by
  constructor <;> decide

/-- C5 as amended: when no candidate selector locates a passage container
on a 200 response, fetch_english_text returns exactly a one-element list
holding the no-container error string, while fetch_korean_text returns
that same error text as a bare string rather than a one-element list; the
error text begins with the word Error. -/
theorem no_container_error_results (page : ScrapePage)
    (hst : page.status = 200) (hc : page.container = none) :
    fetch_english_text page = FetchResult.items [Item.s noContainerMsg] ∧
    fetch_korean_text page = FetchResult.str noContainerMsg ∧
    startsWithError noContainerMsg = true := by
  refine ⟨?_, ?_, by decide⟩ <;> simp [fetch_english_text, fetch_korean_text, hst, hc]

/-- Witness for C5 as amended, at a concrete container-free response. -/
theorem no_container_error_results_ok :
    pageNoContainer.status = 200 ∧ pageNoContainer.container = none ∧
    (fetch_english_text pageNoContainer = FetchResult.items [Item.s noContainerMsg] ∧
     fetch_korean_text pageNoContainer = FetchResult.str noContainerMsg ∧
     startsWithError noContainerMsg = true) :=
  ⟨rfl, rfl, no_container_error_results pageNoContainer rfl rfl⟩

/-- C6 counterexample: with a located container and no verse-numbered
spans, fetch_english_text returns a one-element error list even though
the container text is long (it has no fallback at all), and
fetch_korean_text returns a one-element error list when the container
text has at most 100 characters; in both cases the result is an error,
not a single unnumbered segment of the container text. -/
theorem no_spans_error_counterexample :
    fetch_english_text pageNoSpansEng = FetchResult.items [Item.s engNoVersesMsg] ∧
    fetch_korean_text pageShortFallback = FetchResult.items [Item.s korNoTextMsg] := by
  constructor <;> decide

/-- C6 as amended: only fetch_korean_text falls back, and only when the
cleaned container text is longer than 100 characters: it then returns one
segment carrying verse number 1 and all the container text;
fetch_english_text returns a one-element error list in that situation. -/
theorem kor_fallback_segment (page : ScrapePage) (spans : List Span)
    (hst : page.status = 200) (hc : page.container = some spans)
    (hn : ∀ sp ∈ spans, sp.versenum = none)
    (hl : 100 < (korFallback page).length) :
    fetch_korean_text page = FetchResult.items [Item.v ⟨"1".toList, korFallback page⟩] ∧
    fetch_english_text page = FetchResult.items [Item.s engNoVersesMsg] := by
  have h1 : spans.filterMap korExtract = [] :=
    List.filterMap_eq_nil_iff.mpr fun sp hsp => korExtract_none sp (hn sp hsp)
  have h2 : spans.filterMap engExtract = [] :=
    List.filterMap_eq_nil_iff.mpr fun sp hsp => engExtract_none sp (hn sp hsp)
  constructor
  · simp [fetch_korean_text, hst, hc, h1, hl]
  · simp [fetch_english_text, hst, hc, h2]

/-- Witness for C6 as amended, at a concrete response with no spans and a
150-character container text. -/
theorem kor_fallback_segment_ok :
    pageNoSpansEng.status = 200 ∧ pageNoSpansEng.container = some [] ∧
    100 < (korFallback pageNoSpansEng).length ∧
    (fetch_korean_text pageNoSpansEng
       = FetchResult.items [Item.v ⟨"1".toList, korFallback pageNoSpansEng⟩] ∧
     fetch_english_text pageNoSpansEng = FetchResult.items [Item.s engNoVersesMsg]) :=
  ⟨rfl, rfl, by decide,
    kor_fallback_segment pageNoSpansEng [] rfl rfl (by decide) (by decide)⟩

/-- C8: when no schedule row carries the current date,
get_todays_reference returns none, and main logs the no-reading line and
finishes without invoking post_to_discord, hence without the webhook
POST, whatever the fetchers would return. -/
theorem no_schedule_no_webhook (rows : List SheetRow) (today : Str)
    (fetchE fetchK : Str → FetchResult) (h : ∀ r ∈ rows, r.date ≠ today) :
    get_todays_reference rows today = none ∧
    mainRun rows today fetchE fetchK = ⟨[noReadingMsg], false⟩ := by
  have hn := get_todays_reference_none rows today h
  exact ⟨hn, by simp [mainRun, hn]⟩

/-- Witness for C8 at a concrete schedule and date. -/
theorem no_schedule_no_webhook_ok :
    (∀ r ∈ [rowJan1], r.date ≠ "2026-02-02".toList) ∧
    (get_todays_reference [rowJan1] "2026-02-02".toList = none ∧
     mainRun [rowJan1] "2026-02-02".toList dummyFetch dummyFetch
       = ⟨[noReadingMsg], false⟩) :=
  ⟨by decide, no_schedule_no_webhook [rowJan1] _ dummyFetch dummyFetch (by decide)⟩

/- Machinery for the greedy packing claim: the chunk list is the image of
a partition of the verse list into nonempty blocks of consecutive verses. -/

theorem renderVerse_ne_nil (v : Verse) : renderVerse v ≠ [] := by
  simp [renderVerse]

theorem joinSep_cons_cons (c d : Str) (t : List Str) :
    joinSep (c :: d :: t) = c ++ ' ' :: joinSep (d :: t) := rfl

theorem joinSep_singleton (c : Str) : joinSep [c] = c := rfl

theorem joinSep_cons_ne_nil (c : Str) (rest : List Str) (h : c ≠ []) :
    joinSep (c :: rest) ≠ [] := by
  cases rest with
  | nil => simpa [joinSep] using h
  | cons d t => simp [joinSep_cons_cons]

theorem blockText_ne_nil (b : List Verse) (h : b ≠ []) : blockText b ≠ [] := by
  match b, h with
  | v :: t, _ =>
    show joinSep (renderVerse v :: t.map renderVerse) ≠ []
    exact joinSep_cons_ne_nil _ _ (renderVerse_ne_nil v)

theorem joinSep_append_last (xs : List Str) (a : Str) (h : xs ≠ []) :
    joinSep (xs ++ [a]) = joinSep xs ++ ' ' :: a := by
  induction xs with
  | nil => exact absurd rfl h
  | cons x t ih =>
    cases t with
    | nil => simp [joinSep_cons_cons, joinSep_singleton]
    | cons y u =>
      have hyu : (y :: u : List Str) ≠ [] := by simp
      calc joinSep ((x :: y :: u) ++ [a])
          = x ++ ' ' :: joinSep ((y :: u) ++ [a]) := by
            simp only [List.cons_append]; rw [joinSep_cons_cons]
        _ = x ++ ' ' :: (joinSep (y :: u) ++ ' ' :: a) := by rw [ih hyu]
        _ = joinSep (x :: y :: u) ++ ' ' :: a := by
            rw [joinSep_cons_cons]; simp [List.append_assoc]

theorem joinSep_append (xs ys : List Str) (hx : xs ≠ []) (hy : ys ≠ []) :
    joinSep (xs ++ ys) = joinSep xs ++ ' ' :: joinSep ys := by
  induction xs with
  | nil => exact absurd rfl hx
  | cons x t ih =>
    cases t with
    | nil =>
      match ys, hy with
      | y :: u, _ => simp [joinSep_cons_cons, joinSep_singleton]
    | cons z u =>
      have hzu : (z :: u : List Str) ≠ [] := by simp
      calc joinSep ((x :: z :: u) ++ ys)
          = x ++ ' ' :: joinSep ((z :: u) ++ ys) := by
            simp only [List.cons_append]; rw [joinSep_cons_cons]
        _ = x ++ ' ' :: (joinSep (z :: u) ++ ' ' :: joinSep ys) := by rw [ih hzu]
        _ = joinSep (x :: z :: u) ++ ' ' :: joinSep ys := by
            rw [joinSep_cons_cons]; simp [List.append_assoc]

theorem catBlocks_cons_ne_nil (b : List Verse) (t : List (List Verse)) (h : b ≠ []) :
    catBlocks (b :: t) ≠ [] := by
  match b, h with
  | v :: u, _ => simp [catBlocks]

theorem joinSep_blocks (P : List (List Verse)) (h : ∀ b ∈ P, b ≠ []) :
    joinSep (P.map blockText) = joinSep ((catBlocks P).map renderVerse) := by
  induction P with
  | nil => rfl
  | cons b t ih =>
    have hb : b ≠ [] := h b (List.mem_cons_self b t)
    have ht : ∀ x ∈ t, x ≠ [] := fun x hx => h x (List.mem_cons_of_mem b hx)
    cases t with
    | nil => simp [catBlocks, blockText, joinSep_singleton]
    | cons b2 t2 =>
      have hb2 : b2 ≠ [] := ht b2 (List.mem_cons_self b2 t2)
      have hcat : catBlocks (b2 :: t2) ≠ [] := catBlocks_cons_ne_nil b2 t2 hb2
      have hmapb : b.map renderVerse ≠ [] := by
        intro hx; exact hb (List.map_eq_nil_iff.mp hx)
      have hmapc : (catBlocks (b2 :: t2)).map renderVerse ≠ [] := by
        intro hx; exact hcat (List.map_eq_nil_iff.mp hx)
      calc joinSep ((b :: b2 :: t2).map blockText)
          = blockText b ++ ' ' :: joinSep ((b2 :: t2).map blockText) := by
            simp only [List.map_cons]; rw [joinSep_cons_cons]
        _ = blockText b ++ ' ' :: joinSep ((catBlocks (b2 :: t2)).map renderVerse) := by
            rw [ih ht]
        _ = joinSep (b.map renderVerse ++ (catBlocks (b2 :: t2)).map renderVerse) := by
            rw [joinSep_append _ _ hmapb hmapc]; rfl
        _ = joinSep ((catBlocks (b :: b2 :: t2)).map renderVerse) := by
            simp [catBlocks, List.map_append]

theorem chunkLoop_nil (m : Nat) (chunks : List Str) (current : Str) :
    chunkLoop m [] chunks current
      = if current ≠ [] then chunks ++ [current] else chunks := rfl

theorem chunkLoop_cons (m : Nat) (v : Verse) (rest : List Verse)
    (chunks : List Str) (current : Str) :
    chunkLoop m (v :: rest) chunks current =
      if (if current ≠ [] then current ++ ' ' :: renderVerse v else renderVerse v).length > m then
        if current ≠ [] then
          chunkLoop m rest (chunks ++ [current]) (renderVerse v)
        else
          chunkLoop m rest
            (chunks ++ [pySliceTo (renderVerse v) ((m : Int) - 50) ++ "...".toList]) []
      else
        chunkLoop m rest chunks
          (if current ≠ [] then current ++ ' ' :: renderVerse v else renderVerse v) := rfl

theorem blockText_snoc (B : List Verse) (v : Verse) (h : B ≠ []) :
    blockText (B ++ [v]) = blockText B ++ ' ' :: renderVerse v := by
  have hmap : B.map renderVerse ≠ [] := by
    intro hx; exact h (List.map_eq_nil_iff.mp hx)
  show joinSep ((B ++ [v]).map renderVerse) = _
  rw [List.map_append]
  simpa using joinSep_append_last (B.map renderVerse) (renderVerse v) hmap

theorem chunkLoop_partition (m : Nat) (vs : List Verse) :
    ∀ (B : List Verse) (acc : List Str), B ≠ [] →
    ∃ P : List (List Verse), (∀ b ∈ P, b ≠ []) ∧ catBlocks P = B ++ vs ∧
      chunkLoop m vs acc (blockText B) = acc ++ P.map blockText := by
  induction vs with
  | nil =>
    intro B acc hB
    refine ⟨[B], ?_, by simp [catBlocks], ?_⟩
    · intro b hb; rw [List.mem_singleton] at hb; exact hb ▸ hB
    · rw [chunkLoop_nil, if_pos (blockText_ne_nil B hB)]; simp
  | cons v rest ih =>
    intro B acc hB
    have hcur : blockText B ≠ [] := blockText_ne_nil B hB
    have hBv : (B ++ [v] : List Verse) ≠ [] := by simp
    have hif : (if blockText B ≠ [] then blockText B ++ ' ' :: renderVerse v
                else renderVerse v) = blockText (B ++ [v]) := by
      rw [if_pos hcur, blockText_snoc B v hB]
    rw [chunkLoop_cons, hif, if_pos hcur]
    by_cases hgt : (blockText (B ++ [v])).length > m
    · rw [if_pos hgt]
      have hrv : renderVerse v = blockText [v] := by simp [blockText, joinSep_singleton]
      obtain ⟨P', h1, h2, h3⟩ := ih [v] (acc ++ [blockText B]) (by simp)
      refine ⟨B :: P', ?_, ?_, ?_⟩
      · intro b hb
        rcases List.mem_cons.mp hb with hb | hb
        · exact hb ▸ hB
        · exact h1 b hb
      · simp [catBlocks, h2]
      · rw [hrv, h3]; simp [List.append_assoc]
    · rw [if_neg hgt]
      obtain ⟨P', h1, h2, h3⟩ := ih (B ++ [v]) acc hBv
      refine ⟨P', h1, ?_, h3⟩
      rw [h2]; simp [List.append_assoc]

theorem chunkLoop_le (m : Nat) (vs : List Verse) :
    ∀ (acc : List Str) (current : Str),
    (∀ c ∈ acc, c.length ≤ m) → current.length ≤ m →
    (∀ v ∈ vs, (renderVerse v).length ≤ m) →
    ∀ c ∈ chunkLoop m vs acc current, c.length ≤ m := by
  induction vs with
  | nil =>
    intro acc current hacc hcur _ c hc
    rw [chunkLoop_nil] at hc
    by_cases hne : current ≠ []
    · rw [if_pos hne] at hc
      rcases List.mem_append.mp hc with hc | hc
      · exact hacc c hc
      · rw [List.mem_singleton] at hc; exact hc ▸ hcur
    · rw [if_neg hne] at hc; exact hacc c hc
  | cons v rest ih =>
    intro acc current hacc hcur hvs c hc
    have hv : (renderVerse v).length ≤ m := hvs v (List.mem_cons_self v rest)
    have hrest : ∀ x ∈ rest, (renderVerse x).length ≤ m :=
      fun x hx => hvs x (List.mem_cons_of_mem v hx)
    rw [chunkLoop_cons] at hc
    by_cases hne : current ≠ []
    · rw [if_pos hne, if_pos hne] at hc
      by_cases hgt : (current ++ ' ' :: renderVerse v).length > m
      · rw [if_pos hgt] at hc
        refine ih (acc ++ [current]) (renderVerse v) ?_ hv hrest c hc
        intro x hx
        rcases List.mem_append.mp hx with hx | hx
        · exact hacc x hx
        · rw [List.mem_singleton] at hx; exact hx ▸ hcur
      · rw [if_neg hgt] at hc
        exact ih acc _ hacc (Nat.not_lt.mp hgt) hrest c hc
    · rw [if_neg hne, if_neg hne] at hc
      rw [if_neg (Nat.not_lt.mpr hv)] at hc
      exact ih acc _ hacc hv hrest c hc

theorem allVerses_map (vs : List Verse) : allVerses (vs.map Item.v) = some vs := by
  induction vs with
  | nil => rfl
  | cons v t ih => simp [allVerses, ih]

/-- C1: for every nonempty verse sequence in which every rendered verse
fits max_size, the chunker partitions the sequence into nonempty blocks of
consecutive verses, one chunk per block in order: every chunk fits
max_size, no rendered verse is split across two chunks, and joining the
chunks with the single separator space reproduces exactly the rendered
verses joined in their original order. -/
theorem chunk_keeps_verses_whole (vs : List Verse) (m : Nat) (hne : vs ≠ [])
    (hb : ∀ v ∈ vs, (renderVerse v).length ≤ m) :
    ∃ P : List (List Verse), (∀ b ∈ P, b ≠ []) ∧ catBlocks P = vs ∧
      (∀ b ∈ P, (blockText b).length ≤ m) ∧
      joinSep (P.map blockText) = joinSep (vs.map renderVerse) ∧
      chunk_verses_by_size (ChunkInput.list (vs.map Item.v)) m
        = some ((P.map blockText).map Item.s) := by
  match vs, hne with
  | v :: rest, _ =>
    have hv : (renderVerse v).length ≤ m := hb v (List.mem_cons_self v rest)
    have hrv : renderVerse v = blockText [v] := by simp [blockText, joinSep_singleton]
    have hstep : chunkLoop m (v :: rest) [] [] = chunkLoop m rest [] (blockText [v]) := by
      rw [chunkLoop_cons]
      simp only [ne_eq, not_true_eq_false, if_false, ite_false]
      rw [if_neg (Nat.not_lt.mpr hv), hrv]
    obtain ⟨P, h1, h2, h3⟩ := chunkLoop_partition m rest [v] [] (by simp)
    have h2' : catBlocks P = v :: rest := by simpa using h2
    have hchunks : chunkLoop m (v :: rest) [] [] = P.map blockText := by
      rw [hstep, h3]; simp
    have hPne : P ≠ [] := by
      intro h; rw [h] at h2'; simp [catBlocks] at h2'
    have hlen : ∀ c ∈ chunkLoop m (v :: rest) [] [], c.length ≤ m :=
      chunkLoop_le m (v :: rest) [] [] (by simp) (by simp) hb
    refine ⟨P, h1, h2', ?_, ?_, ?_⟩
    · intro b hbP
      exact hlen (blockText b) (hchunks ▸ List.mem_map_of_mem blockText hbP)
    · rw [joinSep_blocks P h1, h2']
    · have hall := allVerses_map (v :: rest)
      rw [List.map_cons] at hall
      simp only [List.map_cons, chunk_verses_by_size, hall]
      rw [hchunks, if_pos (by intro h; exact hPne (List.map_eq_nil_iff.mp h))]

/-- Witness for C1 at two short verses and max_size 8, which forces two
chunks. -/
theorem chunk_keeps_verses_whole_ok :
    (([wVerseA, wVerseB] : List Verse) ≠ [] ∧
     ∀ v ∈ [wVerseA, wVerseB], (renderVerse v).length ≤ 8) ∧
    (∃ P : List (List Verse), (∀ b ∈ P, b ≠ []) ∧ catBlocks P = [wVerseA, wVerseB] ∧
      (∀ b ∈ P, (blockText b).length ≤ 8) ∧
      joinSep (P.map blockText) = joinSep ([wVerseA, wVerseB].map renderVerse) ∧
      chunk_verses_by_size (ChunkInput.list ([wVerseA, wVerseB].map Item.v)) 8
        = some ((P.map blockText).map Item.s)) :=
  ⟨⟨by decide, by decide⟩,
    chunk_keeps_verses_whole [wVerseA, wVerseB] 8 (by decide) (by decide)⟩

/- Machinery for the verse-text cleanliness claim: equation lemmas for the
scanners and window predicates, head inversions, and preservation of
marker-freedom under the cleanup pipeline. -/

theorem hasWsRun_nil : hasWsRun [] = false := rfl

theorem hasWsRun_one (a : Char) : hasWsRun [a] = false := rfl

theorem hasWsRun_cons_cons (a b : Char) (t : Str) :
    hasWsRun (a :: b :: t) = ((pyIsSpace a && pyIsSpace b) || hasWsRun (b :: t)) := rfl

theorem crossMark_nil : hasCrossrefMark [] = false := rfl

theorem crossMark_one (a : Char) : hasCrossrefMark [a] = false := rfl

theorem crossMark_two (a b : Char) : hasCrossrefMark [a, b] = false := rfl

theorem crossMark_cons3 (a b c : Char) (t : Str) :
    hasCrossrefMark (a :: b :: c :: t)
      = ((a == '(' && isUpperAscii b && c == ')') || hasCrossrefMark (b :: c :: t)) := rfl

theorem subCrossref_cons3 (a b c : Char) (r2 : Str) :
    subCrossref (a :: b :: c :: r2)
      = if a = '(' ∧ isUpperAscii b ∧ c = ')' then ' ' :: subCrossref r2
        else a :: subCrossref (b :: c :: r2) := rfl

theorem collapseWsAux_cons (flag : Bool) (c : Char) (rest : Str) :
    collapseWsAux flag (c :: rest)
      = if pyIsSpace c then
          (if flag then collapseWsAux true rest else ' ' :: collapseWsAux true rest)
        else c :: collapseWsAux false rest := rfl

theorem upper_ne_space (b : Char) (h : isUpperAscii b = true) : b ≠ ' ' := by
  intro he; subst he; exact absurd h (by decide)

theorem hasWsRun_tail (a : Char) (l : Str) (h : hasWsRun (a :: l) = false) :
    hasWsRun l = false := by
  cases l with
  | nil => rfl
  | cons b t =>
    rw [hasWsRun_cons_cons, Bool.or_eq_false_iff] at h
    exact h.2

theorem crossMark_tail (a : Char) (l : Str) (h : hasCrossrefMark (a :: l) = false) :
    hasCrossrefMark l = false := by
  cases l with
  | nil => rfl
  | cons b t =>
    cases t with
    | nil => rfl
    | cons c u =>
      rw [crossMark_cons3, Bool.or_eq_false_iff] at h
      exact h.2

theorem crossMark_cons_of_ne (a : Char) (l : Str) (ha : (a == '(') = false) :
    hasCrossrefMark (a :: l) = hasCrossrefMark l := by
  cases l with
  | nil => rfl
  | cons b t =>
    cases t with
    | nil => rfl
    | cons c u => rw [crossMark_cons3, ha]; simp

theorem noWsRun_append_right (xs ys : Str) (h : hasWsRun (xs ++ ys) = false) :
    hasWsRun ys = false := by
  induction xs with
  | nil => exact h
  | cons a t ih => exact ih (hasWsRun_tail a (t ++ ys) h)

theorem noWsRun_append_left (xs ys : Str) (h : hasWsRun (xs ++ ys) = false) :
    hasWsRun xs = false := by
  induction xs with
  | nil => rfl
  | cons a t ih =>
    cases t with
    | nil => rfl
    | cons b u =>
      rw [List.cons_append, List.cons_append, hasWsRun_cons_cons,
        Bool.or_eq_false_iff] at h
      rw [hasWsRun_cons_cons, Bool.or_eq_false_iff]
      exact ⟨h.1, ih (by rw [List.cons_append]; exact h.2)⟩

theorem noWsRun_infix (u mid v : Str) (h : hasWsRun (u ++ mid ++ v) = false) :
    hasWsRun mid = false :=
  noWsRun_append_left mid v
    (noWsRun_append_right u (mid ++ v) (by rw [← List.append_assoc]; exact h))

theorem noCross_append_right (xs ys : Str) (h : hasCrossrefMark (xs ++ ys) = false) :
    hasCrossrefMark ys = false := by
  induction xs with
  | nil => exact h
  | cons a t ih => exact ih (crossMark_tail a (t ++ ys) h)

theorem noCross_append_left (xs ys : Str) (h : hasCrossrefMark (xs ++ ys) = false) :
    hasCrossrefMark xs = false := by
  induction xs with
  | nil => rfl
  | cons a t ih =>
    cases t with
    | nil => rfl
    | cons b u =>
      cases u with
      | nil => rfl
      | cons c w =>
        rw [List.cons_append, List.cons_append, List.cons_append,
          crossMark_cons3, Bool.or_eq_false_iff] at h
        rw [crossMark_cons3, Bool.or_eq_false_iff]
        refine ⟨h.1, ih ?_⟩
        rw [List.cons_append, List.cons_append]
        exact h.2

theorem noCross_infix (u mid v : Str) (h : hasCrossrefMark (u ++ mid ++ v) = false) :
    hasCrossrefMark mid = false :=
  noCross_append_left mid v
    (noCross_append_right u (mid ++ v) (by rw [← List.append_assoc]; exact h))

theorem pyStripRight_decomp (s : Str) : ∃ v, s = pyStripRight s ++ v := by
  refine ⟨(s.reverse.takeWhile pyIsSpace).reverse, ?_⟩
  have h := List.takeWhile_append_dropWhile (p := pyIsSpace) (l := s.reverse)
  have h2 : s = (s.reverse.takeWhile pyIsSpace ++ s.reverse.dropWhile pyIsSpace).reverse := by
    rw [h, List.reverse_reverse]
  rw [List.reverse_append] at h2
  exact h2

theorem pyStrip_decomp (s : Str) : ∃ u v, s = u ++ pyStrip s ++ v := by
  obtain ⟨v, hv⟩ := pyStripRight_decomp (pyStripLeft s)
  refine ⟨s.takeWhile pyIsSpace, v, ?_⟩
  have h := List.takeWhile_append_dropWhile (p := pyIsSpace) (l := s)
  calc s = s.takeWhile pyIsSpace ++ pyStripLeft s := h.symm
    _ = s.takeWhile pyIsSpace ++ (pyStrip s ++ v) := by
        rw [show pyStripLeft s = pyStrip s ++ v from hv]
    _ = s.takeWhile pyIsSpace ++ pyStrip s ++ v := by rw [List.append_assoc]

theorem collapse_true_head (l : Str) (c : Char) (rest : Str)
    (h : collapseWsAux true l = c :: rest) : pyIsSpace c = false := by
  induction l generalizing c rest with
  | nil => exact absurd h (by simp [collapseWsAux])
  | cons x t ih =>
    rw [collapseWsAux_cons] at h
    by_cases hx : pyIsSpace x = true
    · rw [if_pos hx, if_pos rfl] at h; exact ih c rest h
    · rw [if_neg hx] at h
      obtain ⟨rfl, -⟩ := List.cons.inj h
      simpa using hx

theorem noWsRun_collapse (l : Str) : ∀ flag, hasWsRun (collapseWsAux flag l) = false := by
  induction l with
  | nil => intro flag; rfl
  | cons c t ih =>
    intro flag
    rw [collapseWsAux_cons]
    by_cases hc : pyIsSpace c = true
    · rw [if_pos hc]
      cases flag with
      | true => rw [if_pos rfl]; exact ih true
      | false =>
        rw [if_neg Bool.false_ne_true]
        cases hX : collapseWsAux true t with
        | nil => exact hasWsRun_one ' '
        | cons d Y =>
          rw [hasWsRun_cons_cons, Bool.or_eq_false_iff]
          refine ⟨?_, ?_⟩
          · rw [collapse_true_head t d Y hX]; simp
          · rw [← hX]; exact ih true
    · rw [if_neg hc]
      have hc' : pyIsSpace c = false := by simpa using hc
      cases hX : collapseWsAux false t with
      | nil => exact hasWsRun_one c
      | cons d Y =>
        rw [hasWsRun_cons_cons, Bool.or_eq_false_iff]
        refine ⟨by rw [hc']; simp, ?_⟩
        rw [← hX]; exact ih false

theorem subCrossref_head_inv (r : Str) (b : Char) (Y : Str)
    (h : subCrossref r = b :: Y) (hb : b ≠ ' ') :
    ∃ r2, r = b :: r2 ∧ Y = subCrossref r2 := by
  match r with
  | [] => exact absurd h (by simp [subCrossref])
  | [a] =>
    obtain ⟨rfl, hY⟩ := List.cons.inj h
    exact ⟨[], rfl, hY.symm⟩
  | [a, c] =>
    obtain ⟨rfl, hY⟩ := List.cons.inj h
    exact ⟨[c], rfl, hY.symm⟩
  | a :: c :: d :: r2 =>
    rw [subCrossref_cons3] at h
    by_cases hm : a = '(' ∧ isUpperAscii c = true ∧ d = ')'
    · rw [if_pos hm] at h
      obtain ⟨he, -⟩ := List.cons.inj h
      exact absurd he.symm hb
    · rw [if_neg hm] at h
      obtain ⟨rfl, hY⟩ := List.cons.inj h
      exact ⟨c :: d :: r2, rfl, hY.symm⟩

theorem collapse_false_head_inv (t : Str) (b : Char) (Y : Str)
    (h : collapseWsAux false t = b :: Y) (hb : b ≠ ' ') :
    ∃ t2, t = b :: t2 ∧ Y = collapseWsAux false t2 := by
  match t with
  | [] => exact absurd h (by simp [collapseWsAux])
  | x :: t2 =>
    rw [collapseWsAux_cons] at h
    by_cases hx : pyIsSpace x = true
    · rw [if_pos hx, if_neg Bool.false_ne_true] at h
      obtain ⟨he, -⟩ := List.cons.inj h
      exact absurd he.symm hb
    · rw [if_neg hx] at h
      obtain ⟨rfl, hY⟩ := List.cons.inj h
      exact ⟨t2, rfl, hY.symm⟩

theorem noCross_subCrossref_fuel :
    ∀ (n : Nat) (l : Str), l.length ≤ n → hasCrossrefMark (subCrossref l) = false := by
  intro n
  induction n with
  | zero =>
    intro l hl
    have hnil : l = [] := List.length_eq_zero.mp (Nat.le_zero.mp hl)
    subst hnil; rfl
  | succ n ih =>
    intro l hl
    match l with
    | [] => rfl
    | [a] => exact crossMark_one a
    | [a, b] => exact crossMark_two a b
    | a :: b :: c :: r2 =>
      have hlen1 : (b :: c :: r2).length ≤ n := by simp at hl ⊢; omega
      have hlen2 : r2.length ≤ n := by simp at hl ⊢; omega
      rw [subCrossref_cons3]
      by_cases hm : a = '(' ∧ isUpperAscii b = true ∧ c = ')'
      · rw [if_pos hm, crossMark_cons_of_ne _ _ (by decide)]
        exact ih r2 hlen2
      · rw [if_neg hm]
        by_cases ha : a = '('
        · subst ha
          cases hX : subCrossref (b :: c :: r2) with
          | nil => exact crossMark_one '('
          | cons b' Y =>
            cases Y with
            | nil => exact crossMark_two '(' b'
            | cons c' t' =>
              rw [crossMark_cons3, Bool.or_eq_false_iff]
              constructor
              · by_cases hb' : isUpperAscii b' = true
                · by_cases hc' : c' = ')'
                  · obtain ⟨r3, he1, he2⟩ :=
                      subCrossref_head_inv (b :: c :: r2) b' (c' :: t') hX
                        (upper_ne_space b' hb')
                    obtain ⟨hbb, hr3⟩ := List.cons.inj he1
                    subst hc'
                    obtain ⟨r4, hce, -⟩ :=
                      subCrossref_head_inv r3 ')' t' he2.symm (by decide)
                    rw [← hr3] at hce
                    obtain ⟨hcc, -⟩ := List.cons.inj hce
                    exact absurd ⟨rfl, hbb ▸ hb', hcc⟩ hm
                  · simp [hc']
                · simp [hb']
              · rw [← hX]; exact ih (b :: c :: r2) hlen1
        · rw [crossMark_cons_of_ne a _ (beq_eq_false_iff_ne.mpr ha)]
          exact ih (b :: c :: r2) hlen1

theorem noCross_subCrossref (l : Str) : hasCrossrefMark (subCrossref l) = false :=
  noCross_subCrossref_fuel l.length l (Nat.le_refl _)

theorem noCross_collapse (l : Str) :
    ∀ flag, hasCrossrefMark l = false → hasCrossrefMark (collapseWsAux flag l) = false := by
  induction l with
  | nil => intro flag _; rfl
  | cons c t ih =>
    intro flag h
    have htail : hasCrossrefMark t = false := crossMark_tail c t h
    rw [collapseWsAux_cons]
    by_cases hc : pyIsSpace c = true
    · rw [if_pos hc]
      cases flag with
      | true => rw [if_pos rfl]; exact ih true htail
      | false =>
        rw [if_neg Bool.false_ne_true, crossMark_cons_of_ne _ _ (by decide)]
        exact ih true htail
    · rw [if_neg hc]
      by_cases hcp : c = '('
      · subst hcp
        cases hX : collapseWsAux false t with
        | nil => exact crossMark_one '('
        | cons b' Y =>
          cases Y with
          | nil => exact crossMark_two '(' b'
          | cons c' t' =>
            rw [crossMark_cons3, Bool.or_eq_false_iff]
            constructor
            · by_cases hb' : isUpperAscii b' = true
              · by_cases hc' : c' = ')'
                · obtain ⟨t2, he1, he2⟩ :=
                    collapse_false_head_inv t b' (c' :: t') hX (upper_ne_space b' hb')
                  subst hc'
                  obtain ⟨t3, he3, -⟩ :=
                    collapse_false_head_inv t2 ')' t' he2.symm (by decide)
                  rw [he1, he3, crossMark_cons3] at h
                  simp [hb'] at h
                · simp [hc']
              · simp [hb']
            · rw [← hX]; exact ih false htail
      · rw [crossMark_cons_of_ne _ _ (beq_eq_false_iff_ne.mpr hcp)]
        exact ih false htail

theorem noWsRun_engClean (t : Str) : hasWsRun (engCleanText t) = false := by
  obtain ⟨u, v, huv⟩ := pyStrip_decomp (collapseWs (subCrossref (subFootnote t)))
  have huv2 : collapseWs (subCrossref (subFootnote t)) = u ++ engCleanText t ++ v := huv
  exact noWsRun_infix u _ v (by rw [← huv2]; exact noWsRun_collapse _ false)

theorem noCross_engClean (t : Str) : hasCrossrefMark (engCleanText t) = false := by
  have h1 : hasCrossrefMark (collapseWs (subCrossref (subFootnote t))) = false :=
    noCross_collapse _ false (noCross_subCrossref _)
  obtain ⟨u, v, huv⟩ := pyStrip_decomp (collapseWs (subCrossref (subFootnote t)))
  have huv2 : collapseWs (subCrossref (subFootnote t)) = u ++ engCleanText t ++ v := huv
  exact noCross_infix u _ v (by rw [← huv2]; exact h1)

/-- C7 counterexample: a Korean verse text keeps its whitespace run and
its cross-reference marker, because fetch_korean_text applies only the
footnote pass to verse texts; and an English verse text can keep a
footnote marker, because the single substitution pass does not rescan
what removing a nested marker glues together. This refutes the claim for
both fetchers. -/
theorem kor_eng_texts_retain_markup :
    fetch_korean_text pageKorMarkup
      = FetchResult.items [Item.v ⟨"1".toList, "a  b (C) d".toList⟩] ∧
    hasWsRun "a  b (C) d".toList = true ∧
    hasCrossrefMark "a  b (C) d".toList = true ∧
    fetch_english_text pageEngNested
      = FetchResult.items [Item.v ⟨"1".toList, "[a]".toList⟩] ∧
    hasFootnoteMark "[a]".toList = true :=
  ⟨by decide, by decide, by decide, by decide, by decide⟩

/-- C7 as amended: every verse text fetch_english_text produces contains
no cross-reference marker and no run of two or more whitespace characters;
footnote markers are removed by one non-rescanning pass in both fetchers,
so nested brackets can leave a residue, and fetch_korean_text applies only
that footnote pass to its verse texts, which may therefore keep
cross-reference markers and whitespace runs. -/
theorem eng_texts_clean (page : ScrapePage) (l : List Item)
    (hres : fetch_english_text page = FetchResult.items l)
    (ve : Verse) (hmem : Item.v ve ∈ l) :
    hasWsRun ve.text = false ∧ hasCrossrefMark ve.text = false := by
  rw [fetch_english_text] at hres
  by_cases hst : page.status ≠ 200
  · rw [if_pos hst] at hres
    simp only [FetchResult.items.injEq] at hres
    subst hres
    simp at hmem
  · rw [if_neg hst] at hres
    cases hcont : page.container with
    | none =>
      simp only [hcont, FetchResult.items.injEq] at hres
      subst hres
      simp at hmem
    | some spans =>
      simp only [hcont] at hres
      by_cases hvd : spans.filterMap engExtract ≠ []
      · rw [if_pos hvd] at hres
        simp only [FetchResult.items.injEq] at hres
        subst hres
        obtain ⟨w, hw, hwe⟩ := List.mem_map.mp hmem
        have hwve : w = ve := by injection hwe
        subst hwve
        obtain ⟨sp, hsp, hex⟩ := List.mem_filterMap.mp hw
        cases hv : sp.versenum with
        | none =>
          simp only [engExtract, hv] at hex
          exact Option.noConfusion hex
        | some n =>
          simp only [engExtract, hv] at hex
          by_cases ht : engCleanText sp.text ≠ []
          · rw [if_pos ht] at hex
            injection hex with hex2
            subst hex2
            exact ⟨noWsRun_engClean sp.text, noCross_engClean sp.text⟩
          · rw [if_neg ht] at hex
            simp at hex
      · rw [if_neg hvd] at hres
        simp only [FetchResult.items.injEq] at hres
        subst hres
        simp at hmem

/-- Witness for C7 as amended, at a concrete page whose verse text holds
both kinds of markers and extra spaces before cleanup. -/
theorem eng_texts_clean_ok :
    fetch_english_text pageEngPlain = FetchResult.items [Item.v engPlainVerse] ∧
    Item.v engPlainVerse ∈ [Item.v engPlainVerse] ∧
    (hasWsRun engPlainVerse.text = false ∧ hasCrossrefMark engPlainVerse.text = false) :=
  ⟨by decide, by decide,
    eng_texts_clean pageEngPlain [Item.v engPlainVerse] (by decide) engPlainVerse (by decide)⟩
